import Mathlib

/-!
Verification of the object-graph persistence engine of the msm-tis repository.

The definitions below are shallow embeddings of the Python source:
machine-level details are modelled with `Nat`/`Int`, dictionaries with
association lists, raised exceptions with `Except`/`Option`, and stateful
methods with explicit state passing.  Each definition's doc comment names the
source function it embeds.
-/

namespace MsmTis

/-! ## Object store: save (identity assignment)

`NetCDFPlus.save` (src/openpathsampling/storage/netcdfplus.py) and
`StorableObject.save` (src/openpathsampling/netcdfplus/base.py) both delegate
to the per-class object store's `save`.  Objects are modelled by a `Nat` id,
identities by `Nat`, the store's reverse index by an association list and the
physical rows by the list of object ids whose row was written. -/

structure ObjectStoreState where
  index : List (Nat × Nat)
  rows : List Nat
  next_idx : Nat
deriving DecidableEq, Repr

/-- Reverse-index lookup: the identity assigned to object `o`, if any. -/
def index_lookup (idx : List (Nat × Nat)) (o : Nat) : Option Nat :=
  (idx.find? (fun e => e.1 == o)).map Prod.snd

/-- Modelled from the spec: `ObjectStore.save`.  The per-class object store
that `NetCDFPlus.save` and `StorableObject.save` delegate to is not under
`src/`; section 4.2 of the spec describes it: "if `obj` already has an
assigned identity in this store, return it unchanged (idempotent — saving
twice never duplicates a row). Otherwise: assign the next identity, serialize
attributes ..., write the row, register the object in the cache under its new
identity, return the identity." -/
def ObjectStore_save (s : ObjectStoreState) (o : Nat) : Nat × ObjectStoreState :=
  match index_lookup s.index o with
  | some i => (i, s)
  | none =>
      (s.next_idx,
        { index := s.index ++ [(o, s.next_idx)],
          rows := s.rows ++ [o],
          next_idx := s.next_idx + 1 })

/-- Store invariant: each written row's object is indexed, each indexed object
has a row, and no object has two rows. -/
def StoreInv (s : ObjectStoreState) : Prop :=
  s.rows.Nodup ∧ (∀ o ∈ s.rows, index_lookup s.index o ≠ none) ∧
    (∀ e ∈ s.index, e.1 ∈ s.rows)

instance (s : ObjectStoreState) : Decidable (StoreInv s) := by
  unfold StoreInv; infer_instance

/-! ## Backend type delegates: the `index` logical type

`NetCDFPlus.create_type_delegate` (src/openpathsampling/storage/netcdfplus.py,
branch `var_type == 'index'`): the setter maps `None` to the sentinel `-1` and
passes other values through; the getter maps negative stored values to `None`
and non-negative ones to themselves; both act elementwise on vectors. -/

/-- Scalar branch of the `index` setter: `-1 if v is None else v`. -/
def index_setter_scalar (v : Option Int) : Int :=
  match v with
  | none => -1
  | some w => w

/-- Scalar branch of the `index` getter: `None if int(v) < 0 else int(v)`. -/
def index_getter_scalar (v : Int) : Option Int :=
  if v < 0 then none else some v

/-- Vector branch of the `index` setter (list comprehension over `v`). -/
def index_setter_vector (v : List (Option Int)) : List Int :=
  v.map index_setter_scalar

/-- Vector branch of the `index` getter (list comprehension over `v`). -/
def index_getter_vector (v : List Int) : List (Option Int) :=
  v.map index_getter_scalar

/-! ## LoaderProxy (src/openpathsampling/netcdfplus/proxy.py)

A proxy carries a target index `_idx` and the owning store `_store`.  Python
object identity of stores (`is`) is modelled by giving every store a `Nat`
identifier; the live contents of the stores are a function
`contents : store id → index → Option (object id)`, where the returned object
id models the Python-level identity of the loaded instance. -/

structure LoaderProxy where
  _idx : Nat
  _store : Nat
deriving DecidableEq, Repr

/-- An object that a proxy can be compared against: another proxy or a plain
(non-proxy) object, identified by its Python object id. -/
inductive PyRef where
  | prox (p : LoaderProxy)
  | plain (o : Nat)
deriving DecidableEq, Repr

/-- `LoaderProxy._load_`: `self._store[self._idx]`. -/
def LoaderProxy_load (contents : Nat → Nat → Option Nat) (p : LoaderProxy) : Option Nat :=
  contents p._store p._idx

/-- `LoaderProxy.__eq__`.  The `self is other` branch is subsumed by the
structural test on `(_idx, _store)`: identical proxy objects agree on both
fields.  For a non-proxy `other`, the code tests `self.__subject__ is other`,
i.e. whether resolving the proxy yields exactly the object `other`. -/
def LoaderProxy_eq (contents : Nat → Nat → Option Nat) (p : LoaderProxy)
    (other : PyRef) : Bool :=
  match other with
  | .prox q => p._idx == q._idx && p._store == q._store
  | .plain o => LoaderProxy_load contents p == some o

/-- `GenericLazyLoader.load` (src/openpathsampling/new/serialization.py):
`storage_load` is the result `self.storage.load(self.__uuid__)` would produce
at this call, `loaded` is the memo field `_loaded_object`.  Returns the loaded
object and the new memo, or the `RuntimeError` when nothing was found. -/
def GenericLazyLoader_load (storage_load : Option Nat) (loaded : Option Nat) :
    Except String (Nat × Option Nat) :=
  let loaded' :=
    match loaded with
    | some o => some o
    | none => storage_load
  match loaded' with
  | none => .error "UUID not found in storage"
  | some o => .ok (o, loaded')

/-- `LoaderProxy.__subject__` (proxy.py): `subject` is the weakref field
`_subject` (the id of the weakly-held object, or `none`), `alive` says whether
a weakly referenced object is still live at this access, `load_result` is what
`_load_` would return if called now.  Returns the resolved object (if any) and
the new `_subject` field. -/
def LoaderProxy_subject_access (alive : Nat → Bool) (load_result : Option Nat)
    (subject : Option Nat) : Option Nat × Option Nat :=
  match subject with
  | some o =>
      if alive o then (some o, some o)
      else
        match load_result with
        | none => (none, some o)
        | some r => (some r, some r)
  | none =>
      match load_result with
      | none => (none, none)
      | some r => (some r, some r)

/-- State of a store as seen by `LoaderProxy.__class__`: only the
`content_class` attribute is consulted (classes are modelled by `Nat` ids). -/
structure ObjectStoreInfo where
  content_class : Nat
deriving DecidableEq, Repr

/-- `LoaderProxy.__class__` property: `return self._store.content_class`.
The embedding threads the `_subject` memo state to express that the property
neither reads nor writes it, and takes no store-contents argument at all —
the code performs no load. -/
def LoaderProxy_class (stores : Nat → ObjectStoreInfo) (p : LoaderProxy)
    (subject_memo : Option Nat) : Nat × Option Nat :=
  ((stores p._store).content_class, subject_memo)

/-! ## KeyDelegate (NetCDFPlus.KeyDelegate, src/openpathsampling/storage/netcdfplus.py)

A key is either a raw integer index or an object translated through the
store's reverse index (`self.store.index[item]`).  The wrapped netCDF
variable is modelled as a total map `Nat → Int`; vectorized access
`variable[list]` is elementwise in list order. -/

inductive StoreKey where
  | intKey (n : Nat)
  | objKey (o : Nat)
deriving DecidableEq, Repr

/-- `item if type(item) is int else self.store.index[item]`. -/
def key_to_index (index : Nat → Nat) : StoreKey → Nat
  | .intKey n => n
  | .objKey o => index o

/-- `KeyDelegate.__getitem__`, vectorized branch: translate keys, read the
values of `sorted(list(set(idxs)))` in one call, then put each value back at
the position of its requested key via `sorted_idxs.index(idx)`. -/
def KeyDelegate_get (vbl : Nat → Int) (index : Nat → Nat)
    (keys : List StoreKey) : List Int :=
  let idxs := keys.map (key_to_index index)
  let sorted_idxs := idxs.dedup.mergeSort (fun a b => decide (a ≤ b))
  let sorted_values := sorted_idxs.map vbl
  idxs.map (fun idx => sorted_values.getD (List.indexOf idx sorted_idxs) 0)

/-- One vectorized assignment `variable[ks] = xs`: pairwise updates. -/
def write_pairs (vbl : Nat → Int) : List (Nat × Int) → Nat → Int
  | [], n => vbl n
  | (k, x) :: tl, n => write_pairs (fun m => if m = k then x else vbl m) tl n

/-- `KeyDelegate.__setitem__`, vectorized branch: translate keys, deduplicate
(`list(set(idxs))`), pair each distinct index with
`value[idxs.index(val)]` — the value supplied with the index's first
occurrence — and assign.  `list(set(...))` iteration order is unspecified in
Python; the resulting map is order-independent because each distinct index is
written exactly one value. -/
def KeyDelegate_set (vbl : Nat → Int) (index : Nat → Nat)
    (keys : List StoreKey) (values : List Int) : Nat → Int :=
  let idxs := keys.map (key_to_index index)
  let sorted_idxs := idxs.dedup
  let sorted_values := sorted_idxs.map (fun v => values.getD (List.indexOf v idxs) 0)
  write_pairs vbl (sorted_idxs.zip sorted_values)

/-! ## Structured values with embedded identity references

`replace_uuid` and `from_dict_with_uuids`
(src/openpathsampling/new/serialization_helpers.py).  Python values are
modelled by a mutual inductive: atoms without a `__uuid__`, storable objects
(identified by their uuid), uuid marker strings `"UUID(u)"`, and nested
lists/dicts.  The helper predicates `is_mappable`/`is_iterable` live in a
`tools` module that is not under `src/`; following the spec's words
("arbitrarily nested dicts, lists and tuples"), containers recurse and atoms
(including marker strings) do not. -/

mutual
inductive PyVal where
  | prim (n : Int)
  | obj (u : Nat)
  | uuidstr (u : Nat)
  | plist (xs : PyList)
  | pdict (xs : PyDict)
inductive PyList where
  | nil
  | cons (hd : PyVal) (tl : PyList)
inductive PyDict where
  | dnil
  | dcons (key : String) (val : PyVal) (tl : PyDict)
end
deriving instance DecidableEq for PyVal, PyList, PyDict

mutual
/-- `replace_uuid`: an object carrying a uuid becomes an encoded marker
(`encode_uuid(get_uuid(obj))`); mappables and iterables recurse; anything
else is returned unchanged. -/
def replace_uuid : PyVal → PyVal
  | .prim n => .prim n
  | .obj u => .uuidstr u
  | .uuidstr u => .uuidstr u
  | .plist xs => .plist (replace_uuid_list xs)
  | .pdict xs => .pdict (replace_uuid_dict xs)
/-- `replace_uuid` on the elements of an iterable. -/
def replace_uuid_list : PyList → PyList
  | .nil => .nil
  | .cons hd tl => .cons (replace_uuid hd) (replace_uuid_list tl)
/-- `replace_uuid` on the values of a mappable. -/
def replace_uuid_dict : PyDict → PyDict
  | .dnil => .dnil
  | .dcons k v tl => .dcons k (replace_uuid v) (replace_uuid_dict tl)
end

/-- `from_dict_with_uuids`: for each top-level `(key, value)` item, if the
value `is_uuid_string`, replace it by `existing_uuids[decode_uuid(value)]`
(`KeyError` — modelled as `.error u` — when the uuid has not been visited);
all other values, nested structure included, are left untouched. -/
def from_dict_with_uuids : PyDict → (Nat → Option PyVal) → Except Nat PyDict
  | .dnil, _ => .ok .dnil
  | .dcons k v tl, existing_uuids =>
      match v with
      | .uuidstr u =>
          match existing_uuids u with
          | none => .error u
          | some value_obj =>
              (from_dict_with_uuids tl existing_uuids).map (.dcons k value_obj ·)
      | w => (from_dict_with_uuids tl existing_uuids).map (.dcons k w ·)

mutual
/-- A value containing no storable object and no uuid marker anywhere. -/
def marker_free : PyVal → Bool
  | .prim _ => true
  | .obj _ => false
  | .uuidstr _ => false
  | .plist xs => marker_free_list xs
  | .pdict xs => marker_free_dict xs
def marker_free_list : PyList → Bool
  | .nil => true
  | .cons hd tl => marker_free hd && marker_free_list tl
def marker_free_dict : PyDict → Bool
  | .dnil => true
  | .dcons _ v tl => marker_free v && marker_free_dict tl
end

/-- A top-level dict value that decoding can restore: either a storable
object itself, or a value free of objects and markers. -/
def top_level_ok (v : PyVal) : Bool :=
  (match v with
   | .obj _ => true
   | _ => false) || marker_free v

/-- All top-level values of the dict satisfy `top_level_ok`. -/
def dict_top_ok : PyDict → Bool
  | .dnil => true
  | .dcons _ v tl => top_level_ok v && dict_top_ok tl

/-! ## Reconstruction DAG
(`dependency_dag`, `dag_reload_order`,
src/openpathsampling/new/serialization_helpers.py)

A directed graph is modelled by its edge list; `dependency_dag` adds the edge
`(from_node, to_node)` for every `to_node` referenced by `from_node` (the
`if to_nodes:` guard means an identity with no dependencies and no referrer
never enters the graph, so the node set is exactly the set of edge
endpoints).  The networkx calls `is_directed_acyclic_graph` and
`topological_sort` are embedded by their documented contract through a
verified Kahn elimination: repeatedly emit a node that no live node points
to; if none exists in a nonempty remainder the graph is cyclic. -/

abbrev EdgeList := List (Nat × Nat)

/-- Node set of the graph built from an edge list: all edge endpoints. -/
def graph_nodes (edges : EdgeList) : List Nat :=
  (edges.map Prod.fst ++ edges.map Prod.snd).dedup

/-- `n` has in-degree zero in the subgraph of the still-live nodes `S`. -/
def is_ready (S : List Nat) (edges : EdgeList) (n : Nat) : Bool :=
  decide (∀ e ∈ edges, ¬(e.2 = n ∧ e.1 ∈ S))

/-- Kahn elimination with explicit fuel: emit ready nodes until none remain;
a nonempty remainder without a ready node means a cycle (`none`). -/
def kahn_aux (edges : EdgeList) : Nat → List Nat → Option (List Nat)
  | 0, S => if S.isEmpty then some [] else none
  | fuel+1, S =>
      match S.find? (is_ready S edges) with
      | none => if S.isEmpty then some [] else none
      | some n => (kahn_aux edges fuel (S.erase n)).map (n :: ·)

/-- `networkx.algorithms.dag.topological_sort`, by its contract: a list in
which every edge's source precedes its target, or `none` on a cycle. -/
def topological_sort (edges : EdgeList) : Option (List Nat) :=
  kahn_aux edges (graph_nodes edges).length (graph_nodes edges)

/-- The graph contains a directed cycle: a nonempty edge path from some node
back to itself. -/
def hasCycle (edges : EdgeList) : Prop :=
  ∃ n l, List.Chain (fun a b => (a, b) ∈ edges) n (l ++ [n])

/-- `networkx.algorithms.dag.is_directed_acyclic_graph`, by its contract. -/
def is_directed_acyclic_graph (edges : EdgeList) : Bool :=
  (topological_sort edges).isSome

/-- The error raised by `dependency_dag` on a cyclic reference graph (a
`RuntimeError("Reconstruction DAG not acyclic?!?!")` in the code; the spec
names it `CyclicReferenceError`). -/
inductive ReconstructionError where
  | cyclicReferenceError
deriving DecidableEq, Repr

/-- A built graph: its node set and its edge list. -/
structure DiGraph where
  nodes : List Nat
  edges : EdgeList
deriving DecidableEq, Repr

/-- Edges added by `dependency_dag` from the dependency mapping
`{from_node: to_nodes}`. -/
def mapping_edges (m : List (Nat × List Nat)) : EdgeList :=
  m.flatMap (fun p => p.2.map (fun t => (p.1, t)))

/-- `dependency_dag` (fresh graph case `dag=None`): build the graph from the
mapping's edges, raise on a cycle, otherwise return the graph. -/
def dependency_dag (m : List (Nat × List Nat)) : Except ReconstructionError DiGraph :=
  let edges := mapping_edges m
  if is_directed_acyclic_graph edges then
    .ok ⟨graph_nodes edges, edges⟩
  else
    .error .cyclicReferenceError

/-- `dag_reload_order`: `list(reversed(list(topological_sort(dag))))`. -/
def dag_reload_order (g : DiGraph) : Option (List Nat) :=
  (topological_sort g.edges).map List.reverse

/-- Descending sample of `seq`: `[seq (k+d-1), ..., seq (k+1), seq k]`
(used to extract a cycle from a stuck Kahn elimination). -/
def chain_list (seq : Nat → Nat) (k : Nat) : Nat → List Nat
  | 0 => []
  | d+1 => seq (k + d) :: chain_list seq k d

/-! ## Breadth-first closure of referenced identities
(`get_all_uuids_loading`, src/openpathsampling/new/serialization_helpers.py)

The backend is modelled as a list of uuid rows, each carrying the list of
uuids its table row references (the combined `uuid + lazy` output of
`uuids_from_table_row`).  The loop state is the current frontier
`uuid_list`, the set `known_uuids` (a list, starting empty as with the
default `existing_uuids=None`), and the accumulated list of uuids whose rows
were fetched from the backend.  The Python `while` loop is given explicit
fuel; `get_all_uuids_loading` supplies enough fuel for the proved bound, and
the termination theorem shows the fuel is never exhausted. -/

structure BackendRow where
  uuid : Nat
  deps : List Nat
deriving DecidableEq, Repr

/-- `backend.load_uuids_table` for one uuid: its row, if the backend has
it. -/
def load_uuid_row (backend : List BackendRow) (u : Nat) : Option BackendRow :=
  backend.find? (fun r => r.uuid == u)

/-- One `while uuid_list:` loop of `get_all_uuids_loading`:
`new_uuids = {u for u in uuid_list if u not in known_uuids}` (a set — the
deduplicated filter), fetch the rows of the new uuids, rebuild `uuid_list`
from the referenced uuids of the fetched rows, and extend `known_uuids`.
The fetched uuids are accumulated in the last argument and returned. -/
def gal_loop (backend : List BackendRow) :
    Nat → List Nat → List Nat → List Nat → Option (List Nat)
  | 0, uuid_list, _, fetched => if uuid_list.isEmpty then some fetched else none
  | fuel+1, uuid_list, known_uuids, fetched =>
      if uuid_list.isEmpty then some fetched
      else
        let new_uuids := (uuid_list.filter (fun u => !decide (u ∈ known_uuids))).dedup
        let new_rows := new_uuids.filterMap (load_uuid_row backend)
        let next := new_rows.flatMap (fun r => r.deps)
        gal_loop backend fuel next (known_uuids ++ new_uuids) (fetched ++ new_uuids)

/-- Every uuid the loop can ever see: the roots plus every uuid referenced
from some backend row. -/
def gal_universe (backend : List BackendRow) (roots : List Nat) : List Nat :=
  roots ++ backend.flatMap (fun r => r.deps)

/-- `get_all_uuids_loading` (with the default `existing_uuids=None`),
returning the list of uuids whose rows were fetched. -/
def get_all_uuids_loading (backend : List BackendRow) (uuid_list : List Nat) :
    Option (List Nat) :=
  gal_loop backend ((gal_universe backend uuid_list).dedup.length + 2)
    uuid_list [] []

end MsmTis

namespace MsmTis

/-! ## Theorems -/

mutual
/-- Values without objects or markers are fixed points of `replace_uuid`. -/
theorem marker_free_replace (v : PyVal) (h : marker_free v = true) :
    replace_uuid v = v := by
  cases v with
  | prim n => rfl
  | obj u => simp [marker_free] at h
  | uuidstr u => simp [marker_free] at h
  | plist xs =>
      simp only [marker_free] at h
      simp [replace_uuid, marker_free_replace_list xs h]
  | pdict xs =>
      simp only [marker_free] at h
      simp [replace_uuid, marker_free_replace_dict xs h]
theorem marker_free_replace_list (xs : PyList) (h : marker_free_list xs = true) :
    replace_uuid_list xs = xs := by
  cases xs with
  | nil => rfl
  | cons hd tl =>
      simp only [marker_free_list, Bool.and_eq_true] at h
      simp [replace_uuid_list, marker_free_replace hd h.1,
        marker_free_replace_list tl h.2]
theorem marker_free_replace_dict (xs : PyDict) (h : marker_free_dict xs = true) :
    replace_uuid_dict xs = xs := by
  cases xs with
  | dnil => rfl
  | dcons k v tl =>
      simp only [marker_free_dict, Bool.and_eq_true] at h
      simp [replace_uuid_dict, marker_free_replace v h.1,
        marker_free_replace_dict tl h.2]
end

/-- C1: saving an object twice returns the same identity both times, leaves
the store exactly as after the first save (no second row is written), and the
store then holds exactly one row for the object. -/
theorem save_idempotent (s : ObjectStoreState) (o : Nat) (hinv : StoreInv s) :
    (ObjectStore_save (ObjectStore_save s o).2 o).1 = (ObjectStore_save s o).1 ∧
    (ObjectStore_save (ObjectStore_save s o).2 o).2 = (ObjectStore_save s o).2 ∧
    List.count o ((ObjectStore_save (ObjectStore_save s o).2 o).2).rows = 1 := by
  obtain ⟨hnd, hrows, hidx⟩ := hinv
  unfold ObjectStore_save
  cases hfind : index_lookup s.index o with
  | some i =>
      simp only [hfind]
      refine ⟨trivial, trivial, ?_⟩
      have ho : o ∈ s.rows := by
        unfold index_lookup at hfind
        cases he : s.index.find? (fun e => e.1 == o) with
        | none => simp [he] at hfind
        | some e =>
            have hp := List.find?_some he
            have hmem := List.mem_of_find?_eq_some he
            have : e.1 = o := by simpa using hp
            exact this ▸ hidx e hmem
      exact List.count_eq_one_of_mem hnd ho
  | none =>
      have honotin : o ∉ s.rows := by
        intro hmem
        exact hrows o hmem hfind
      have hfind2 : index_lookup (s.index ++ [(o, s.next_idx)]) o = some s.next_idx := by
        unfold index_lookup at hfind ⊢
        cases he : s.index.find? (fun e => e.1 == o) with
        | some e => simp [he] at hfind
        | none =>
            rw [List.find?_append, he]
            simp
      simp only [hfind, hfind2]
      refine ⟨trivial, trivial, ?_⟩
      simp [List.count_append, List.count_eq_zero.mpr honotin]

/-- Witness for `save_idempotent` at the empty store. -/
theorem save_idempotent_witness :
    (ObjectStore_save (ObjectStore_save ⟨[], [], 0⟩ 42).2 42).1 =
      (ObjectStore_save ⟨[], [], 0⟩ 42).1 ∧
    (ObjectStore_save (ObjectStore_save ⟨[], [], 0⟩ 42).2 42).2 =
      (ObjectStore_save ⟨[], [], 0⟩ 42).2 ∧
    List.count 42 ((ObjectStore_save (ObjectStore_save ⟨[], [], 0⟩ 42).2 42).2).rows = 1 :=
  save_idempotent ⟨[], [], 0⟩ 42 (by decide)

/-- C6: the `index` logical type maps `None` to the sentinel `-1` and keeps
non-negative values; reading maps negatives to `None` and keeps non-negative
values; hence read-after-write is the identity on `{None} ∪ {n | 0 ≤ n}`,
both scalar and elementwise on vectors. -/
theorem index_type_roundtrip :
    index_setter_scalar none = -1 ∧
    (∀ n : Int, index_setter_scalar (some n) = n) ∧
    (∀ w : Int, w < 0 → index_getter_scalar w = none) ∧
    (∀ w : Int, 0 ≤ w → index_getter_scalar w = some w) ∧
    (∀ v : Option Int, (∀ n, v = some n → 0 ≤ n) →
      index_getter_scalar (index_setter_scalar v) = v) ∧
    (∀ l : List (Option Int), (∀ v ∈ l, ∀ n, v = some n → 0 ≤ n) →
      index_getter_vector (index_setter_vector l) = l) := by
  have hscal : ∀ v : Option Int, (∀ n, v = some n → 0 ≤ n) →
      index_getter_scalar (index_setter_scalar v) = v := by
    intro v hv
    cases v with
    | none => simp [index_setter_scalar, index_getter_scalar]
    | some n =>
        have hn : 0 ≤ n := hv n rfl
        simp [index_setter_scalar, index_getter_scalar, not_lt.mpr hn]
  refine ⟨rfl, fun n => rfl, ?_, ?_, hscal, ?_⟩
  · intro w hw; simp [index_getter_scalar, hw]
  · intro w hw; simp [index_getter_scalar, not_lt.mpr hw]
  · intro l hl
    induction l with
    | nil => rfl
    | cons v tl ih =>
        have h1 := hscal v (hl v (by simp))
        have h2 := ih (fun w hw => hl w (by simp [hw]))
        simp only [index_setter_vector, index_getter_vector, List.map_cons] at h2 ⊢
        rw [h1, h2]

/-- Witness for `index_type_roundtrip`: round trip at `some 5`, `none`, and a
small vector. -/
theorem index_type_roundtrip_witness :
    index_getter_scalar (index_setter_scalar (some 5)) = some 5 ∧
    index_getter_vector (index_setter_vector [none, some 3]) = [none, some 3] :=
  ⟨index_type_roundtrip.2.2.2.2.1 (some 5) (by intro n hn; cases hn; decide),
   index_type_roundtrip.2.2.2.2.2 [none, some 3]
     (by intro v hv n hn; subst hn; simp at hv; omega)⟩

/-- C7: two proxies compare equal exactly when they carry the same index in
the same store (in particular, proxies with a different index or a different
store are never equal), and a proxy compares equal to the object its subject
resolves to. -/
theorem loader_proxy_eq_spec :
    (∀ contents p q, LoaderProxy_eq contents p (.prox q) = true ↔
      (p._idx = q._idx ∧ p._store = q._store)) ∧
    (∀ contents p o, LoaderProxy_load contents p = some o →
      LoaderProxy_eq contents p (.plain o) = true) ∧
    (∀ contents p q, p._idx ≠ q._idx ∨ p._store ≠ q._store →
      LoaderProxy_eq contents p (.prox q) = false) := by
  refine ⟨?_, ?_, ?_⟩
  · intro contents p q
    simp [LoaderProxy_eq]
  · intro contents p o h
    simp [LoaderProxy_eq, h]
  · intro contents p q h
    rcases h with h | h <;> simp [LoaderProxy_eq] <;> intro h' <;> simp_all

/-- Witness for `loader_proxy_eq_spec` at concrete proxies. -/
theorem loader_proxy_eq_spec_witness :
    (LoaderProxy_eq (fun _ _ => some 7) ⟨1, 2⟩ (.prox ⟨1, 2⟩) = true ↔
      ((1 : Nat) = 1 ∧ (2 : Nat) = 2)) ∧
    LoaderProxy_eq (fun _ _ => some 7) ⟨1, 2⟩ (.plain 7) = true ∧
    LoaderProxy_eq (fun _ _ => some 7) ⟨1, 2⟩ (.prox ⟨1, 3⟩) = false :=
  ⟨loader_proxy_eq_spec.1 (fun _ _ => some 7) ⟨1, 2⟩ ⟨1, 2⟩,
   loader_proxy_eq_spec.2.1 (fun _ _ => some 7) ⟨1, 2⟩ 7 rfl,
   loader_proxy_eq_spec.2.2 (fun _ _ => some 7) ⟨1, 2⟩ ⟨1, 3⟩ (Or.inr (by decide))⟩

/-- C8: resolution is memoized.  A lazy loader whose memo holds `o` returns
`o` without consulting storage (the result is the same for every storage
answer); after one successful load every later load returns the same object
and leaves the memo unchanged.  Likewise `__subject__`: while the weakly held
subject survives, repeated access returns the same instance for every
possible loader answer. -/
theorem lazy_loading_memoized :
    (∀ load o, GenericLazyLoader_load load (some o) = .ok (o, some o)) ∧
    (∀ load₁ load₂ o st, GenericLazyLoader_load load₁ none = .ok (o, st) →
      GenericLazyLoader_load load₂ st = .ok (o, st)) ∧
    (∀ alive load o, alive o = true →
      LoaderProxy_subject_access alive load (some o) = (some o, some o)) ∧
    (∀ alive load₁ load₂ o st st',
      LoaderProxy_subject_access alive load₁ st = (some o, st') → alive o = true →
      LoaderProxy_subject_access alive load₂ st' = (some o, st')) := by
  refine ⟨?_, ?_, ?_, ?_⟩
  · intro load o; rfl
  · intro load₁ load₂ o st h
    cases load₁ with
    | none => simp [GenericLazyLoader_load] at h
    | some r =>
        simp [GenericLazyLoader_load] at h
        obtain ⟨ho, hst⟩ := h
        subst ho; subst hst
        rfl
  · intro alive load o h
    simp [LoaderProxy_subject_access, h]
  · intro alive load₁ load₂ o st st' h halive
    have hst' : st' = some o := by
      cases st with
      | some o₀ =>
          by_cases ha : alive o₀ = true
          · simp [LoaderProxy_subject_access, ha] at h
            obtain ⟨h1, h2⟩ := h
            simp [← h1, h2]
          · cases load₁ with
            | none =>
                simp [LoaderProxy_subject_access, ha] at h
            | some r =>
                simp [LoaderProxy_subject_access, ha] at h
                obtain ⟨h1, h2⟩ := h
                simp [← h1, h2]
      | none =>
          cases load₁ with
          | none => simp [LoaderProxy_subject_access] at h
          | some r =>
              simp [LoaderProxy_subject_access] at h
              obtain ⟨h1, h2⟩ := h
              simp [← h1, h2]
    subst hst'
    simp [LoaderProxy_subject_access, halive]

/-- Witness for `lazy_loading_memoized` at a concrete memo and loader. -/
theorem lazy_loading_memoized_witness :
    GenericLazyLoader_load none (some 3) = .ok (3, some 3) ∧
    GenericLazyLoader_load none (some 9) = .ok (9, some 9) ∧
    LoaderProxy_subject_access (fun _ => true) none (some 4) = (some 4, some 4) :=
  ⟨lazy_loading_memoized.1 none 3,
   lazy_loading_memoized.2.1 (some 9) none 9 (some 9) rfl,
   lazy_loading_memoized.2.2.1 (fun _ => true) none 4 rfl⟩

/-- Auxiliary characterization of a vectorized assignment of key/value pairs
`(k, f k)`: position `n` receives `f n` when `n` is one of the keys. -/
theorem write_pairs_map (f : Nat → Int) :
    ∀ (l : List Nat) (vbl : Nat → Int) (n : Nat),
      write_pairs vbl (l.zip (l.map f)) n = if n ∈ l then f n else vbl n := by
  intro l
  induction l with
  | nil => intro vbl n; simp [write_pairs]
  | cons k tl ih =>
      intro vbl n
      have hzip : (k :: tl).zip ((k :: tl).map f) = (k, f k) :: tl.zip (tl.map f) := rfl
      rw [hzip]
      simp only [write_pairs]
      rw [ih]
      by_cases hmem : n ∈ tl
      · simp [hmem]
      · by_cases hk : n = k
        · subst hk; simp [hmem]
        · simp [hmem, hk]

/-- C5 (amended): vectorized read returns, in request order, the stored value
of every requested key — duplicates and object keys included, despite the
internal sort-and-deduplicate; vectorized write stores at each distinct
requested key the value supplied with that key's **first** occurrence (hence,
when the translated keys are distinct, each supplied value is stored at its
corresponding key), and leaves every other position unchanged. -/
theorem key_delegate_spec :
    (∀ (vbl : Nat → Int) (index : Nat → Nat) (keys : List StoreKey),
      KeyDelegate_get vbl index keys = keys.map (fun k => vbl (key_to_index index k))) ∧
    (∀ (vbl : Nat → Int) (index : Nat → Nat) (keys : List StoreKey)
        (values : List Int) (n : Nat),
      KeyDelegate_set vbl index keys values n =
        if n ∈ keys.map (key_to_index index) then
          values.getD (List.indexOf n (keys.map (key_to_index index))) 0
        else vbl n) ∧
    (∀ (vbl : Nat → Int) (index : Nat → Nat) (keys : List StoreKey)
        (values : List Int) (i : Nat) (hi : i < keys.length),
      (keys.map (key_to_index index)).Nodup → i < values.length →
      KeyDelegate_set vbl index keys values
          (key_to_index index (keys.get ⟨i, hi⟩)) = values.getD i 0) := by
  have hget : ∀ (vbl : Nat → Int) (index : Nat → Nat) (keys : List StoreKey),
      KeyDelegate_get vbl index keys =
        keys.map (fun k => vbl (key_to_index index k)) := by
    intro vbl index keys
    unfold KeyDelegate_get
    simp only [List.map_map]
    refine List.map_congr_left ?_
    intro k hk
    set idxs := keys.map (key_to_index index) with hidxs
    set sidxs := idxs.dedup.mergeSort (fun a b => decide (a ≤ b)) with hsidxs
    have hmem : key_to_index index k ∈ sidxs := by
      rw [hsidxs, List.mem_mergeSort, List.mem_dedup, hidxs]
      exact List.mem_map_of_mem _ hk
    have hlt : List.indexOf (key_to_index index k) sidxs < sidxs.length :=
      List.indexOf_lt_length.mpr hmem
    have hlt' : List.indexOf (key_to_index index k) sidxs < (sidxs.map vbl).length := by
      simpa using hlt
    simp only [Function.comp]
    rw [List.getD_eq_getElem _ _ hlt', List.getElem_map, List.getElem_indexOf]
  have hset : ∀ (vbl : Nat → Int) (index : Nat → Nat) (keys : List StoreKey)
      (values : List Int) (n : Nat),
      KeyDelegate_set vbl index keys values n =
        if n ∈ keys.map (key_to_index index) then
          values.getD (List.indexOf n (keys.map (key_to_index index))) 0
        else vbl n := by
    intro vbl index keys values n
    unfold KeyDelegate_set
    rw [write_pairs_map]
    by_cases hmem : n ∈ keys.map (key_to_index index)
    · rw [if_pos (List.mem_dedup.mpr hmem), if_pos hmem]
    · rw [if_neg (fun hc => hmem (List.mem_dedup.mp hc)), if_neg hmem]
  refine ⟨hget, hset, ?_⟩
  intro vbl index keys values i hi hnd hlen
  have hi' : i < (keys.map (key_to_index index)).length := by simpa using hi
  have hkey : key_to_index index (keys.get ⟨i, hi⟩) =
      (keys.map (key_to_index index))[i] := by
    simp
  rw [hset, hkey]
  rw [if_pos (List.getElem_mem hi')]
  rw [List.indexOf_getElem hnd i hi']

/-- C5 counterexample to the claim as stated: with the duplicate key list
`[0, 0]` and the supplied values `[10, 20]`, "each supplied value is stored
at its corresponding key" is impossible — the single cell 0 cannot hold both
10 and 20 (the code in fact keeps the first value, 10, where sequential
assignment would keep 20). -/
theorem key_delegate_dup_write_cex :
    ¬ (KeyDelegate_set (fun _ => 0) (fun o => o)
          [.intKey 0, .intKey 0] [10, 20] 0 = 10 ∧
       KeyDelegate_set (fun _ => 0) (fun o => o)
          [.intKey 0, .intKey 0] [10, 20] 0 = 20) := by
  decide

/-- C4 (amended): `replace_uuid` encodes every embedded storable object,
arbitrarily deep, into a uuid marker; `from_dict_with_uuids` replaces only
the markers appearing directly as top-level dict values.  Decoding with the
resolved-identity map therefore inverts encoding exactly on dicts whose
storable objects all sit at top level (every top-level value is either a
storable object or free of objects and markers). -/
theorem replace_uuid_decode_top_level (dct : PyDict) (h : dict_top_ok dct = true) :
    from_dict_with_uuids (replace_uuid_dict dct) (fun u => some (.obj u)) =
      .ok dct := by
  match dct with
  | .dnil => rfl
  | .dcons k v tl =>
      simp only [dict_top_ok, Bool.and_eq_true] at h
      obtain ⟨hv, htl⟩ := h
      have ihtl := replace_uuid_decode_top_level tl htl
      cases v with
      | obj u =>
          simp only [replace_uuid_dict, replace_uuid, from_dict_with_uuids, ihtl]
          rfl
      | prim n =>
          simp only [replace_uuid_dict, replace_uuid, from_dict_with_uuids, ihtl]
          rfl
      | uuidstr u => simp [top_level_ok, marker_free] at hv
      | plist xs =>
          have hfree : marker_free_list xs = true := by
            simpa [top_level_ok, marker_free] using hv
          have hrep := marker_free_replace_list xs hfree
          simp only [replace_uuid_dict, replace_uuid, hrep, from_dict_with_uuids, ihtl]
          rfl
      | pdict xs =>
          have hfree : marker_free_dict xs = true := by
            simpa [top_level_ok, marker_free] using hv
          have hrep := marker_free_replace_dict xs hfree
          simp only [replace_uuid_dict, replace_uuid, hrep, from_dict_with_uuids, ihtl]
          rfl

/-- Witness for `replace_uuid_decode_top_level`: a dict holding one storable
object and one marker-free nested list round-trips. -/
theorem replace_uuid_decode_top_level_witness :
    from_dict_with_uuids
        (replace_uuid_dict
          (.dcons "a" (.obj 7) (.dcons "b" (.plist (.cons (.prim 3) .nil)) .dnil)))
        (fun u => some (.obj u)) =
      .ok (.dcons "a" (.obj 7) (.dcons "b" (.plist (.cons (.prim 3) .nil)) .dnil)) :=
  replace_uuid_decode_top_level
    (.dcons "a" (.obj 7) (.dcons "b" (.plist (.cons (.prim 3) .nil)) .dnil))
    (by decide)

/-- C4 counterexample to the claim as stated: a storable object nested inside
an inner list is encoded to a marker, but decoding with the resolved-identity
map leaves the nested marker in place, so decode does not invert encode on
the whole structure. -/
theorem nested_marker_not_decoded :
    from_dict_with_uuids
        (replace_uuid_dict (.dcons "k" (.plist (.cons (.obj 1) .nil)) .dnil))
        (fun u => some (.obj u)) ≠
      .ok (.dcons "k" (.plist (.cons (.obj 1) .nil)) .dnil) := by
  have hcomp :
      from_dict_with_uuids
          (replace_uuid_dict (.dcons "k" (.plist (.cons (.obj 1) .nil)) .dnil))
          (fun u => some (.obj u)) =
        .ok (.dcons "k" (.plist (.cons (.uuidstr 1) .nil)) .dnil) := rfl
  rw [hcomp]
  intro hc
  have : PyDict.dcons "k" (.plist (.cons (.uuidstr 1) .nil)) .dnil =
      PyDict.dcons "k" (.plist (.cons (.obj 1) .nil)) .dnil := by
    injection hc
  exact absurd this (by decide)

/-- Every endpoint of an edge is a node of the graph. -/
theorem edge_mem_graph_nodes {edges : EdgeList} {a b : Nat} (h : (a, b) ∈ edges) :
    a ∈ graph_nodes edges ∧ b ∈ graph_nodes edges := by
  unfold graph_nodes
  constructor
  · exact List.mem_dedup.mpr (List.mem_append_left _ (List.mem_map.mpr ⟨(a, b), h, rfl⟩))
  · exact List.mem_dedup.mpr (List.mem_append_right _ (List.mem_map.mpr ⟨(a, b), h, rfl⟩))

/-- A successful Kahn elimination emits exactly the live nodes. -/
theorem kahn_aux_perm (edges : EdgeList) :
    ∀ (fuel : Nat) (S L : List Nat), kahn_aux edges fuel S = some L → L.Perm S := by
  intro fuel
  induction fuel with
  | zero =>
      intro S L h
      simp only [kahn_aux] at h
      by_cases hS : S.isEmpty
      · rw [if_pos hS] at h
        cases h
        rw [List.isEmpty_iff.mp hS]
      · rw [if_neg hS] at h; cases h
  | succ f ih =>
      intro S L h
      simp only [kahn_aux] at h
      split at h
      · next hfind =>
          by_cases hS : S.isEmpty
          · rw [if_pos hS] at h
            cases h
            rw [List.isEmpty_iff.mp hS]
          · rw [if_neg hS] at h; cases h
      · next n hfind =>
          cases hrec : kahn_aux edges f (S.erase n) with
          | none => rw [hrec] at h; cases h
          | some L' =>
              rw [hrec] at h
              cases h
              have hn : n ∈ S := List.mem_of_find?_eq_some hfind
              exact ((ih _ _ hrec).cons n).trans (List.perm_cons_erase hn).symm

/-- In a successful Kahn elimination every edge's source is emitted strictly
before its target (positions as `List.indexOf`). -/
theorem kahn_aux_sorted (edges : EdgeList) :
    ∀ (fuel : Nat) (S L : List Nat), S.Nodup → kahn_aux edges fuel S = some L →
      ∀ a b, (a, b) ∈ edges → a ∈ S → b ∈ S →
        List.indexOf a L < List.indexOf b L := by
  intro fuel
  induction fuel with
  | zero =>
      intro S L hnd h a b hab ha hb
      simp only [kahn_aux] at h
      by_cases hS : S.isEmpty
      · rw [List.isEmpty_iff.mp hS] at ha; cases ha
      · rw [if_neg hS] at h; cases h
  | succ f ih =>
      intro S L hnd h a b hab ha hb
      simp only [kahn_aux] at h
      split at h
      · next hfind =>
          by_cases hS : S.isEmpty
          · rw [List.isEmpty_iff.mp hS] at ha; cases ha
          · rw [if_neg hS] at h; cases h
      · next n hfind =>
          cases hrec : kahn_aux edges f (S.erase n) with
          | none => rw [hrec] at h; cases h
          | some L' =>
              rw [hrec] at h
              cases h
              have hready : is_ready S edges n = true := List.find?_some hfind
              have hn : n ∈ S := List.mem_of_find?_eq_some hfind
              have hbn : b ≠ n := by
                intro hc
                subst hc
                unfold is_ready at hready
                rw [decide_eq_true_eq] at hready
                exact hready (a, b) hab ⟨rfl, ha⟩
              have hbLt : b ∈ S.erase n := (List.mem_erase_of_ne hbn).mpr hb
              have hbL' : b ∈ L' := ((kahn_aux_perm edges f _ _ hrec).mem_iff).mpr hbLt
              have hnb : (n == b) = false := by
                simp [Ne.symm hbn]
              by_cases han : a = n
              · subst han
                rw [List.indexOf_cons, List.indexOf_cons]
                simp only [beq_self_eq_true, hnb, cond_true, cond_false]
                omega
              · have haLt : a ∈ S.erase n := (List.mem_erase_of_ne han).mpr ha
                have hna : (n == a) = false := by
                  simp [Ne.symm han]
                have hlt := ih (S.erase n) L' (hnd.erase n) hrec a b hab haLt hbLt
                rw [List.indexOf_cons, List.indexOf_cons]
                simp only [hna, hnb, cond_false]
                omega

/-- Split form of `kahn_aux_sorted`: for each edge `(a, b)` with both ends
live, the emitted list decomposes as `l₁ ++ a :: l₂ ++ b :: l₃`. -/
theorem kahn_aux_before (edges : EdgeList) :
    ∀ (fuel : Nat) (S L : List Nat), kahn_aux edges fuel S = some L →
      ∀ a b, (a, b) ∈ edges → a ∈ S → b ∈ S →
        ∃ l₁ l₂ l₃, L = l₁ ++ a :: (l₂ ++ b :: l₃) := by
  intro fuel
  induction fuel with
  | zero =>
      intro S L h a b hab ha hb
      simp only [kahn_aux] at h
      by_cases hS : S.isEmpty
      · rw [List.isEmpty_iff.mp hS] at ha; cases ha
      · rw [if_neg hS] at h; cases h
  | succ f ih =>
      intro S L h a b hab ha hb
      simp only [kahn_aux] at h
      split at h
      · next hfind =>
          by_cases hS : S.isEmpty
          · rw [List.isEmpty_iff.mp hS] at ha; cases ha
          · rw [if_neg hS] at h; cases h
      · next n hfind =>
          cases hrec : kahn_aux edges f (S.erase n) with
          | none => rw [hrec] at h; cases h
          | some L' =>
              rw [hrec] at h
              cases h
              have hready : is_ready S edges n = true := List.find?_some hfind
              have hbn : b ≠ n := by
                intro hc
                subst hc
                unfold is_ready at hready
                rw [decide_eq_true_eq] at hready
                exact hready (a, b) hab ⟨rfl, ha⟩
              have hbLt : b ∈ S.erase n := (List.mem_erase_of_ne hbn).mpr hb
              have hbL' : b ∈ L' := ((kahn_aux_perm edges f _ _ hrec).mem_iff).mpr hbLt
              by_cases han : a = n
              · subst han
                obtain ⟨l₂, l₃, hsplit⟩ := List.append_of_mem hbL'
                exact ⟨[], l₂, l₃, by rw [hsplit]; rfl⟩
              · have haLt : a ∈ S.erase n := (List.mem_erase_of_ne han).mpr ha
                obtain ⟨l₁, l₂, l₃, hsplit⟩ := ih (S.erase n) L' hrec a b hab haLt hbLt
                exact ⟨n :: l₁, l₂, l₃, by rw [hsplit]; rfl⟩

/-- If a nonempty live set has no ready node, every live node has a live
predecessor, and following predecessors long enough must revisit a node:
the edge list contains a cycle. -/
theorem stuck_has_cycle (edges : EdgeList) (S : List Nat) (hne : S ≠ [])
    (hstuck : ∀ n ∈ S, is_ready S edges n = false) : hasCycle edges := by
  classical
  have hpred : ∀ n, n ∈ S → ∃ a, a ∈ S ∧ (a, n) ∈ edges := by
    intro n hn
    have h := hstuck n hn
    unfold is_ready at h
    rw [decide_eq_false_iff_not] at h
    push_neg at h
    obtain ⟨e, he, h2, h1⟩ := h
    refine ⟨e.1, h1, ?_⟩
    rw [← h2]
    simpa using he
  obtain ⟨s₀, hs₀⟩ := List.exists_mem_of_ne_nil S hne
  set pred : Nat → Nat :=
    fun n => if h : n ∈ S then Classical.choose (hpred n h) else 0 with hpred_def
  have hpred_spec : ∀ n, n ∈ S → pred n ∈ S ∧ (pred n, n) ∈ edges := by
    intro n hn
    rw [hpred_def]
    simp only [dif_pos hn]
    exact Classical.choose_spec (hpred n hn)
  set seq : Nat → Nat := fun k => pred^[k] s₀ with hseq_def
  have hseqS : ∀ k, seq k ∈ S := by
    intro k
    induction k with
    | zero => simpa [hseq_def] using hs₀
    | succ k ihk =>
        have : seq (k + 1) = pred (seq k) := by
          rw [hseq_def]
          exact Function.iterate_succ_apply' pred k s₀
        rw [this]
        exact (hpred_spec (seq k) ihk).1
  have hseqE : ∀ k, (seq (k + 1), seq k) ∈ edges := by
    intro k
    have : seq (k + 1) = pred (seq k) := by
      rw [hseq_def]
      exact Function.iterate_succ_apply' pred k s₀
    rw [this]
    exact (hpred_spec (seq k) (hseqS k)).2
  have key : ∀ i j, i < j → seq i = seq j → hasCycle edges := by
    intro i j hlt hij
    have hchain : ∀ d, List.Chain (fun a b => (a, b) ∈ edges)
        (seq (i + d)) (chain_list seq i d) := by
      intro d
      induction d with
      | zero => exact List.Chain.nil
      | succ d ihd =>
          rw [chain_list, show i + (d + 1) = (i + d) + 1 from rfl]
          exact List.chain_cons.mpr ⟨hseqE (i + d), ihd⟩
    have hsplit : ∀ d, 1 ≤ d → ∃ l, chain_list seq i d = l ++ [seq i] := by
      intro d
      induction d with
      | zero => omega
      | succ d ihd =>
          intro _
          cases Nat.eq_zero_or_pos d with
          | inl hz =>
              subst hz
              exact ⟨[], by simp [chain_list]⟩
          | inr hpos =>
              obtain ⟨l, hl⟩ := ihd hpos
              exact ⟨seq (i + d) :: l, by rw [chain_list, hl]; rfl⟩
    obtain ⟨l, hl⟩ := hsplit (j - i) (by omega)
    have hc := hchain (j - i)
    rw [hl, show i + (j - i) = j from by omega, ← hij] at hc
    exact ⟨seq i, l, hc⟩
  have hcard : (S.toFinset).card < (Finset.range (S.length + 1)).card := by
    have := List.toFinset_card_le S
    simp only [Finset.card_range]
    omega
  have hmaps : ∀ k ∈ Finset.range (S.length + 1), seq k ∈ S.toFinset := by
    intro k _
    exact List.mem_toFinset.mpr (hseqS k)
  obtain ⟨i, _, j, _, hij, heq⟩ :=
    Finset.exists_ne_map_eq_of_card_lt_of_maps_to hcard hmaps
  rcases Nat.lt_or_ge i j with hlt | hge
  · exact key i j hlt heq
  · have hlt : j < i := by omega
    exact key j i hlt heq.symm

/-- A failed Kahn elimination (with enough fuel) means the edges contain a
cycle. -/
theorem kahn_aux_none_cycle (edges : EdgeList) :
    ∀ (fuel : Nat) (S : List Nat), S.length ≤ fuel →
      kahn_aux edges fuel S = none → hasCycle edges := by
  intro fuel
  induction fuel with
  | zero =>
      intro S hlen h
      have hS : S = [] := List.length_eq_zero.mp (by omega)
      subst hS
      simp [kahn_aux] at h
  | succ f ih =>
      intro S hlen h
      simp only [kahn_aux] at h
      split at h
      · next hfind =>
          by_cases hS : S.isEmpty
          · rw [if_pos hS] at h; cases h
          · rw [if_neg hS] at h
            have hne : S ≠ [] := fun hc => hS (by simp [hc])
            have hstuck : ∀ n ∈ S, is_ready S edges n = false := by
              intro n hn
              have := List.find?_eq_none.mp hfind n hn
              simpa using this
            exact stuck_has_cycle edges S hne hstuck
      · next n hfind =>
          have hrec : kahn_aux edges f (S.erase n) = none :=
            Option.map_eq_none'.mp h
          have hn : n ∈ S := List.mem_of_find?_eq_some hfind
          have hlen' : (S.erase n).length ≤ f := by
            rw [List.length_erase_of_mem hn]
            have : 1 ≤ S.length := List.length_pos.mpr (by intro hc; subst hc; cases hn)
            omega
          exact ih (S.erase n) hlen' hrec

/-- A cyclic edge list defeats the topological sort. -/
theorem topological_sort_cycle_none (edges : EdgeList) (h : hasCycle edges) :
    topological_sort edges = none := by
  cases hts : topological_sort edges with
  | none => rfl
  | some L =>
      exfalso
      obtain ⟨n, l, hchain⟩ := h
      have hmono : ∀ a b, (a, b) ∈ edges →
          List.indexOf a L < List.indexOf b L := by
        intro a b hab
        have hmem := edge_mem_graph_nodes hab
        exact kahn_aux_sorted edges (graph_nodes edges).length (graph_nodes edges) L
          (List.nodup_dedup _) hts a b hab hmem.1 hmem.2
      have hrank : ∀ (m : List Nat) (x y : Nat),
          List.Chain (fun a b => (a, b) ∈ edges) x (m ++ [y]) →
          List.indexOf x L < List.indexOf y L := by
        intro m
        induction m with
        | nil =>
            intro x y hc
            rw [List.nil_append] at hc
            exact hmono x y (List.chain_cons.mp hc).1
        | cons z m ihm =>
            intro x y hc
            rw [List.cons_append] at hc
            obtain ⟨hxz, hc'⟩ := List.chain_cons.mp hc
            exact (hmono x z hxz).trans (ihm z y hc')
      exact absurd (hrank l n n hchain) (lt_irrefl _)

/-- An acyclic edge list admits a topological sort. -/
theorem topological_sort_isSome_of_acyclic (edges : EdgeList)
    (h : ¬ hasCycle edges) : (topological_sort edges).isSome = true := by
  cases hts : topological_sort edges with
  | none =>
      exact absurd
        (kahn_aux_none_cycle edges (graph_nodes edges).length (graph_nodes edges)
          le_rfl hts) h
  | some L => rfl

/-- C2: building the reconstruction DAG from a dependency mapping whose
reference graph contains a cycle raises the cyclic-reference error (so no
graph, and hence no reconstruction order, is ever produced); for an acyclic
mapping it returns the graph of the mapping's edges without error. -/
theorem dependency_dag_spec (m : List (Nat × List Nat)) :
    (hasCycle (mapping_edges m) →
      dependency_dag m = .error .cyclicReferenceError) ∧
    (¬ hasCycle (mapping_edges m) →
      dependency_dag m = .ok ⟨graph_nodes (mapping_edges m), mapping_edges m⟩) := by
  constructor
  · intro hcyc
    have hnone := topological_sort_cycle_none _ hcyc
    simp [dependency_dag, is_directed_acyclic_graph, hnone]
  · intro hacyc
    have hsome := topological_sort_isSome_of_acyclic _ hacyc
    simp [dependency_dag, is_directed_acyclic_graph, hsome]

/-- Witness for `dependency_dag_spec`: the two-cycle `1 ↔ 2` raises, the
chain `1 → 2` builds the graph. -/
theorem dependency_dag_spec_witness :
    dependency_dag [(1, [2]), (2, [1])] = .error .cyclicReferenceError ∧
    dependency_dag [(1, [2]), (2, [])] =
      .ok ⟨graph_nodes (mapping_edges [(1, [2]), (2, [])]),
           mapping_edges [(1, [2]), (2, [])]⟩ :=
  ⟨(dependency_dag_spec [(1, [2]), (2, [1])]).1
      ⟨1, [2], List.Chain.cons (by decide)
        (List.Chain.cons (by decide) List.Chain.nil)⟩,
   (dependency_dag_spec [(1, [2]), (2, [])]).2
      (fun h => absurd (topological_sort_cycle_none _ h) (by decide))⟩

/-- C3: for an acyclic edge list, `dag_reload_order` produces an order on
exactly the graph's nodes in which, for every edge `a → b` (`a` references
`b`), the referenced `b` occurs strictly before the referencing `a` —
dependencies are materialized first. -/
theorem dag_reload_order_spec (edges : EdgeList) (hacyc : ¬ hasCycle edges) :
    ∃ order, dag_reload_order ⟨graph_nodes edges, edges⟩ = some order ∧
      order.Nodup ∧ (∀ n, n ∈ order ↔ n ∈ graph_nodes edges) ∧
      ∀ a b, (a, b) ∈ edges →
        ∃ l₁ l₂ l₃, order = l₁ ++ b :: (l₂ ++ a :: l₃) := by
  have hsome := topological_sort_isSome_of_acyclic edges hacyc
  cases hts : topological_sort edges with
  | none => rw [hts] at hsome; cases hsome
  | some L =>
      have hperm := kahn_aux_perm edges (graph_nodes edges).length
        (graph_nodes edges) L hts
      refine ⟨L.reverse, ?_, ?_, ?_, ?_⟩
      · unfold dag_reload_order
        rw [hts]
        rfl
      · exact List.nodup_reverse.mpr (hperm.nodup_iff.mpr (List.nodup_dedup _))
      · intro n
        rw [List.mem_reverse]
        exact hperm.mem_iff
      · intro a b hab
        have hmem := edge_mem_graph_nodes hab
        obtain ⟨l₁, l₂, l₃, hsplit⟩ :=
          kahn_aux_before edges (graph_nodes edges).length (graph_nodes edges) L
            hts a b hab hmem.1 hmem.2
        refine ⟨l₃.reverse, l₂.reverse, l₁.reverse, ?_⟩
        rw [hsplit]
        simp

/-- Witness for `dag_reload_order_spec` on the chain `1 → 2 → 3`. -/
theorem dag_reload_order_spec_witness :
    ∃ order, dag_reload_order ⟨graph_nodes [(1, 2), (2, 3)], [(1, 2), (2, 3)]⟩ =
        some order ∧
      order.Nodup ∧ (∀ n, n ∈ order ↔ n ∈ graph_nodes [(1, 2), (2, 3)]) ∧
      ∀ a b, (a, b) ∈ ([(1, 2), (2, 3)] : EdgeList) →
        ∃ l₁ l₂ l₃, order = l₁ ++ b :: (l₂ ++ a :: l₃) :=
  dag_reload_order_spec [(1, 2), (2, 3)]
    (fun h => absurd (topological_sort_cycle_none _ h) (by decide))

/-- An empty frontier ends the loop at once, fetching nothing. -/
theorem gal_loop_nil (backend : List BackendRow) :
    ∀ (fuel : Nat) (known fetched : List Nat),
      gal_loop backend fuel [] known fetched = some fetched := by
  intro fuel known fetched
  cases fuel <;> simp [gal_loop]

/-- Unfolding of one loop iteration on a nonempty frontier. -/
theorem gal_loop_step (backend : List BackendRow) (f : Nat)
    (uuid_list known fetched : List Nat) (hne : uuid_list.isEmpty = false) :
    gal_loop backend (f+1) uuid_list known fetched =
      gal_loop backend f
        (((uuid_list.filter (fun u => !decide (u ∈ known))).dedup.filterMap
            (load_uuid_row backend)).flatMap (fun r => r.deps))
        (known ++ (uuid_list.filter (fun u => !decide (u ∈ known))).dedup)
        (fetched ++ (uuid_list.filter (fun u => !decide (u ∈ known))).dedup) := by
  simp [gal_loop, hne]

/-- The loop terminates whenever the fuel exceeds the number of uuids of the
universe not yet known, and the accumulated fetch list stays free of
duplicates.  The measure: every iteration that fetches anything strictly
enlarges the known set within the finite universe `U`. -/
theorem gal_loop_total (backend : List BackendRow) (U : List Nat)
    (hU : ∀ r ∈ backend, ∀ d ∈ r.deps, d ∈ U) :
    ∀ (fuel : Nat) (uuid_list known fetched : List Nat),
      (∀ u ∈ uuid_list, u ∈ U) →
      (U.dedup.filter (fun u => !decide (u ∈ known))).length + 2 ≤ fuel →
      fetched.Nodup → (∀ u ∈ fetched, u ∈ known) →
      ∃ fs, gal_loop backend fuel uuid_list known fetched = some fs ∧ fs.Nodup := by
  intro fuel
  induction fuel with
  | zero => intro _ _ _ _ hle _ _; omega
  | succ f ih =>
      intro uuid_list known fetched hsub hle hnd hfk
      by_cases hempty : uuid_list.isEmpty
      · exact ⟨fetched, by simp [gal_loop, hempty], hnd⟩
      · have hne : uuid_list.isEmpty = false := by simpa using hempty
        rw [gal_loop_step backend f uuid_list known fetched hne]
        by_cases hnil : (uuid_list.filter (fun u => !decide (u ∈ known))).dedup = []
        · rw [hnil]
          simp only [List.filterMap_nil, List.flatMap_nil, List.append_nil]
          exact ⟨fetched, gal_loop_nil backend f _ fetched, hnd⟩
        · obtain ⟨u₀, hu₀⟩ := List.exists_mem_of_ne_nil _ hnil
          have hu₀' := List.mem_filter.mp (List.mem_dedup.mp hu₀)
          have hu₀l : u₀ ∈ uuid_list := hu₀'.1
          have hu₀k : u₀ ∉ known := by simpa using hu₀'.2
          apply ih
          · intro d hd
            rw [List.mem_flatMap] at hd
            obtain ⟨r, hr, hdr⟩ := hd
            rw [List.mem_filterMap] at hr
            obtain ⟨u, _, hru⟩ := hr
            exact hU r (List.mem_of_find?_eq_some hru) d hdr
          · have hsubl :
                (U.dedup.filter (fun u => !decide
                  (u ∈ known ++ (uuid_list.filter
                    (fun v => !decide (v ∈ known))).dedup))).Sublist
                (U.dedup.filter (fun u => !decide (u ∈ known))) := by
              apply List.monotone_filter_right
              intro a ha
              simp only [Bool.not_eq_true', decide_eq_false_iff_not,
                List.mem_append] at ha ⊢
              exact fun hc => ha (Or.inl hc)
            have hlenle := hsubl.length_le
            have hneq :
                (U.dedup.filter (fun u => !decide
                  (u ∈ known ++ (uuid_list.filter
                    (fun v => !decide (v ∈ known))).dedup))).length ≠
                (U.dedup.filter (fun u => !decide (u ∈ known))).length := by
              intro hc
              have heq := hsubl.eq_of_length hc
              have h1 : u₀ ∈ U.dedup.filter (fun u => !decide (u ∈ known)) := by
                rw [List.mem_filter]
                exact ⟨List.mem_dedup.mpr (hsub u₀ hu₀l), by simpa using hu₀k⟩
              rw [← heq, List.mem_filter] at h1
              have h2 := h1.2
              simp only [Bool.not_eq_true', decide_eq_false_iff_not,
                List.mem_append] at h2
              exact h2 (Or.inr hu₀)
            omega
          · refine hnd.append (List.nodup_dedup _) ?_
            intro a haf hanew
            have h2 := List.mem_filter.mp (List.mem_dedup.mp hanew)
            have h3 : a ∈ known := hfk a haf
            simp only [Bool.not_eq_true', decide_eq_false_iff_not] at h2
            exact h2.2 h3
          · intro u hu
            rw [List.mem_append] at hu ⊢
            rcases hu with h | h
            · exact Or.inl (hfk u h)
            · exact Or.inr h

/-- C9: for every finite backend and every initial frontier, the
breadth-first closure terminates with a duplicate-free list of fetched
uuids (each identity's row is fetched at most once); and whenever the
frontier holds no identity outside the known set, the loop fetches nothing
further and exits. -/
theorem get_all_uuids_loading_spec :
    (∀ (backend : List BackendRow) (uuid_list : List Nat), ∃ fetched,
        get_all_uuids_loading backend uuid_list = some fetched ∧
        fetched.Nodup) ∧
    (∀ (backend : List BackendRow) (fuel : Nat)
        (uuid_list known fetched : List Nat),
        (∀ u ∈ uuid_list, u ∈ known) →
        gal_loop backend (fuel + 2) uuid_list known fetched = some fetched) := by
  constructor
  · intro backend uuid_list
    unfold get_all_uuids_loading
    have hfilter : (gal_universe backend uuid_list).dedup.filter
        (fun u => !decide (u ∈ ([] : List Nat))) =
        (gal_universe backend uuid_list).dedup := by
      apply List.filter_eq_self.mpr
      intro a _
      simp
    apply gal_loop_total backend (gal_universe backend uuid_list)
    · intro r hr d hd
      exact List.mem_append_right _ (List.mem_flatMap.mpr ⟨r, hr, hd⟩)
    · intro u hu
      exact List.mem_append_left _ hu
    · rw [hfilter]
    · exact List.nodup_nil
    · intro u hu; cases hu
  · intro backend fuel uuid_list known fetched hsub
    by_cases hempty : uuid_list.isEmpty
    · simp [gal_loop, hempty]
    · have hne : uuid_list.isEmpty = false := by simpa using hempty
      rw [show fuel + 2 = (fuel + 1) + 1 from rfl,
        gal_loop_step backend (fuel + 1) uuid_list known fetched hne]
      have hfilter : uuid_list.filter (fun u => !decide (u ∈ known)) = [] := by
        apply List.filter_eq_nil_iff.mpr
        intro a ha
        simp [hsub a ha]
      rw [hfilter]
      simp only [List.dedup_nil, List.filterMap_nil, List.flatMap_nil,
        List.append_nil]
      exact gal_loop_nil backend (fuel + 1) known fetched

/-- Witness for `get_all_uuids_loading_spec` on a two-row backend. -/
theorem get_all_uuids_loading_spec_witness :
    (∃ fetched, get_all_uuids_loading [⟨1, [2]⟩, ⟨2, []⟩] [1] = some fetched ∧
        fetched.Nodup) ∧
    gal_loop [⟨1, [2]⟩, ⟨2, []⟩] 2 [1, 2] [1, 2] [9] = some [9] :=
  ⟨get_all_uuids_loading_spec.1 [⟨1, [2]⟩, ⟨2, []⟩] [1],
   get_all_uuids_loading_spec.2 [⟨1, [2]⟩, ⟨2, []⟩] 0 [1, 2] [1, 2] [9]
     (by decide)⟩

/-- C10: the `__class__` property of a proxy reports the content class of the
store owning the target index; it does not consult store contents (it takes
none) and leaves the proxy's memoized subject untouched. -/
theorem loader_proxy_class_spec :
    ∀ (stores : Nat → ObjectStoreInfo) (p : LoaderProxy) (memo : Option Nat),
      (LoaderProxy_class stores p memo).1 = (stores p._store).content_class ∧
      (LoaderProxy_class stores p memo).2 = memo := by
  intro stores p memo
  exact ⟨rfl, rfl⟩

end MsmTis
